import Mathlib

/-!
Verification of the BPE tokenizer in BytePairEncoding_BPE.py.

Strings are modelled as lists of characters, and a tokenized word as a list
of symbols.  Python dictionaries (vocab, inverse_vocab, merges, word/pair
frequency tables) are modelled as insertion-ordered association lists, since
the program relies on dict iteration order (key insertion order) both for
the training tie-break and for the encoder's pair selection.  Corpus words
are whitespace-free strings (spec, section 6), under which the space-joined
string representation used by the Python code and the symbol-list
representation used here are in exact bijection.
-/

/-- A symbol (token string), modelled as a list of characters. -/
abbrev Symb : Type := List Char

/-- The reserved end-of-word marker, the four-character string found in the source. -/
def endw : Symb := ['<', '/', 'w', '>']

/-- Association-list lookup: the value stored at the first entry with the given
key, modelling Python dict lookup. -/
def alookup {α β : Type} [DecidableEq α] : List (α × β) → α → Option β
  | [], _ => none
  | e :: rest, a => if e.1 = a then some e.2 else alookup rest a

/-- Association-list assignment, modelling a Python dict assignment: an existing
key is updated in place, a new key is appended at the end. -/
def aset {α β : Type} [DecidableEq α] : List (α × β) → α → β → List (α × β)
  | [], a, b => [(a, b)]
  | e :: rest, a, b => if e.1 = a then (a, b) :: rest else e :: aset rest a b

/-- Counter increment, modelling a defaultdict(int) update via plus-equals: an
existing key has its count increased in place, a new key is appended with the
given count. -/
def bump {α : Type} [DecidableEq α] : List (α × Nat) → α → Nat → List (α × Nat)
  | [], a, n => [(a, n)]
  | e :: rest, a, n => if e.1 = a then (e.1, e.2 + n) :: rest else e :: bump rest a n

/-- All adjacent symbol pairs of a word, in position order, one entry per
adjacent occurrence (the inner loop of a single word in _get_pairs). -/
def adjPairs : List Symb → List (Symb × Symb)
  | x :: y :: rest => (x, y) :: adjPairs (y :: rest)
  | _ => []

/-- BytePairEncoder._get_pairs: accumulate, over all words of the frequency
table in order, the summed frequency of every adjacent symbol pair.  A word
with fewer than two symbols has no adjacent pairs and contributes nothing. -/
def getPairs (wf : List (List Symb × Nat)) : List ((Symb × Symb) × Nat) :=
  wf.foldl (fun ps wc => (adjPairs wc.1).foldl (fun ps p => bump ps p wc.2) ps) []

/-- The scanning loop of BytePairEncoder._merge_word.  The first argument pair
is the merge target, cur is the symbol at the current index, and the list is
what follows it.  On a match the merged symbol replaces the two matched ones
and the index does not advance, so the merged symbol itself is compared
against the next symbol; otherwise the index advances by one. -/
def mergeAux (f s : Symb) : Symb → List Symb → List Symb
  | cur, [] => [cur]
  | cur, y :: rest =>
    if cur = f ∧ y = s then mergeAux f s (f ++ s) rest
    else cur :: mergeAux f s y rest

/-- BytePairEncoder._merge_word on the symbol-list representation: replace
adjacent occurrences of the pair (f, s) by their concatenation.  A word with
fewer than two symbols is returned unchanged. -/
def mergeWord (w : List Symb) (f s : Symb) : List Symb :=
  match w with
  | [] => []
  | x :: xs => mergeAux f s x xs

/-- Python max over (key, count) items with the count as sort key: the fold
replaces the current best only on a strictly larger count, so the first
maximal item in list (= dict iteration) order is returned; none on an empty
list (guarded by the caller). -/
def pyMax {α : Type} : List (α × Nat) → Option (α × Nat)
  | [] => none
  | x :: xs => some (xs.foldl (fun b y => if b.2 < y.2 then y else b) x)

/-- The trainer's pair selection: the first pair of maximal summed frequency in
the construction order of the pair-frequency table. -/
def bestPair (wf : List (List Symb × Nat)) : Option (Symb × Symb) :=
  (pyMax (getPairs wf)).map Prod.fst

/-- The mutable training state of a BytePairEncoder: vocab, inverse_vocab and
merges dicts, the running vocab_size counter, and the current word-frequency
table. -/
structure BPEState where
  vocab : List (Symb × Nat)
  inv : List (Nat × Symb)
  merges : List ((Symb × Symb) × Symb)
  counter : Nat
  wf : List (List Symb × Nat)
deriving DecidableEq

/-- One iteration's selection in BytePairEncoder.train: none when the pair
table is empty or the best pair's frequency is below 1 (the two break
conditions), otherwise the selected best pair. -/
def selectedPair (st : BPEState) : Option (Symb × Symb) :=
  match bestPair st.wf with
  | none => none
  | some bp => if (alookup (getPairs st.wf) bp).getD 0 < 1 then none else some bp

/-- The body of one training iteration after a pair has been selected: record
the merge rule, give the concatenated token the next id in vocab and
inverse_vocab, increment vocab_size, and rebuild the word-frequency table by
merging the pair in every word (accumulating words that collide). -/
def applyMerge (st : BPEState) (bp : Symb × Symb) : BPEState :=
  { vocab := aset st.vocab (bp.1 ++ bp.2) st.counter
    inv := aset st.inv st.counter (bp.1 ++ bp.2)
    merges := aset st.merges bp (bp.1 ++ bp.2)
    counter := st.counter + 1
    wf := st.wf.foldl (fun acc wc => bump acc (mergeWord wc.1 bp.1 bp.2) wc.2) [] }

/-- One full iteration of the training loop body, none when a break condition
fires. -/
def trainStep (st : BPEState) : Option BPEState :=
  (selectedPair st).map (applyMerge st)

/-- The training while-loop: run while the vocab_size counter is below the
target and the iteration cap (the fuel, 100 in the source) is not exhausted;
stop early when a break condition fires. -/
def trainLoop (target : Nat) : Nat → BPEState → BPEState
  | 0, st => st
  | fuel + 1, st =>
    if st.counter < target then
      match trainStep st with
      | none => st
      | some st2 => trainLoop target fuel st2
    else st

/-- The initial symbol-level representation of a corpus word: one symbol per
character followed by the end-of-word marker. -/
def initRep (w : List Char) : List Symb := w.map (fun c => [c]) ++ [endw]

/-- The initial word-frequency table: each input word is re-tokenized to its
character-level representation and its count accumulated. -/
def initWordFreqs (wc : List (List Char × Nat)) : List (List Symb × Nat) :=
  wc.foldl (fun acc e => bump acc (initRep e.1) e.2) []

/-- Add a key to a list unless already present (first-occurrence
de-duplication step). -/
def dedupStep {α : Type} [DecidableEq α] (ks : List α) (k : α) : List α :=
  if k ∈ ks then ks else ks ++ [k]

/-- The set of distinct symbols occurring in the word-frequency table (the
chars set built by train), collected in first-seen order; the order is
irrelevant because the result is sorted before use. -/
def collectChars (wf : List (List Symb × Nat)) : List Symb :=
  wf.foldl (fun acc wc => wc.1.foldl dedupStep acc) []

/-- Lexicographic comparison of symbols by character code, as Python string
comparison orders the set of initial characters. -/
def symLE : Symb → Symb → Bool
  | [], _ => true
  | _ :: _, [] => false
  | a :: as, b :: bs => if a = b then symLE as bs else decide (a < b)

/-- Insert a symbol into a list sorted by symLE. -/
def insertSorted (x : Symb) : List Symb → List Symb
  | [] => [x]
  | y :: ys => if symLE x y then x :: y :: ys else y :: insertSorted x ys

/-- Sort a list of symbols by symLE (Python sorted on distinct strings). -/
def sortSyms : List Symb → List Symb
  | [] => []
  | x :: xs => insertSorted x (sortSyms xs)

/-- Pair the elements of a list with consecutive ids starting at i (the
id-assignment loop over the sorted initial characters). -/
def enumFrom {α : Type} : Nat → List α → List (α × Nat)
  | _, [] => []
  | i, x :: xs => (x, i) :: enumFrom (i + 1) xs

/-- The state right after the initialization part of BytePairEncoder.train:
character-level word frequencies, the distinct characters sorted and given
ids 0, 1, ... in vocab and inverse_vocab, no merges, and vocab_size equal to
the number of distinct characters. -/
def initState (wc : List (List Char × Nat)) : BPEState :=
  { vocab := enumFrom 0 (sortSyms (collectChars (initWordFreqs wc)))
    inv := (enumFrom 0 (sortSyms (collectChars (initWordFreqs wc)))).map (fun e => (e.2, e.1))
    merges := []
    counter := (sortSyms (collectChars (initWordFreqs wc))).length
    wf := initWordFreqs wc }

/-- BytePairEncoder.train with the given target vocab size: initialization
followed by the merge loop with its iteration cap of 100. -/
def train (target : Nat) (wc : List (List Char × Nat)) : BPEState :=
  trainLoop target 100 (initState wc)

/-- The encoder's bigram search: scan the pair table's keys in order and return
the first pair that is a key of the merges dict. -/
def findBigramIn (ms : List ((Symb × Symb) × Symb)) (pairs : List ((Symb × Symb) × Nat)) :
    Option (Symb × Symb) :=
  (pairs.map Prod.fst).find? (fun p => (alookup ms p).isSome)

/-- One pass of the encoder's inner while-loop on a single word: none when the
word has no pairs or no pair is mergeable (the two break conditions),
otherwise the word with the found bigram merged. -/
def encodeStep (ms : List ((Symb × Symb) × Symb)) (w : List Symb) : Option (List Symb) :=
  if getPairs [(w, 1)] = [] then none
  else
    match findBigramIn ms (getPairs [(w, 1)]) with
    | none => none
    | some p => some (mergeWord w p.1 p.2)

/-- The encoder's inner while-loop with explicit fuel (the loop in the source is
unbounded; it is proved below to reach its fixpoint within as many passes as
the word has symbols, which justifies running it on that much fuel). -/
def encodeLoopFuel (ms : List ((Symb × Symb) × Symb)) : Nat → List Symb → List Symb
  | 0, w => w
  | n + 1, w =>
    match encodeStep ms w with
    | none => w
    | some w2 => encodeLoopFuel ms n w2

/-- The encoder's merge loop for one word, run to its fixpoint. -/
def encodeWordLoop (ms : List ((Symb × Symb) × Symb)) (w : List Symb) : List Symb :=
  encodeLoopFuel ms w.length w

/-- Helper for pySplit: accumulate the current chunk (reversed) while scanning. -/
def pySplitAux : List Char → List Char → List (List Char)
  | acc, [] => if acc = [] then [] else [acc.reverse]
  | acc, c :: cs =>
    if c.isWhitespace then
      if acc = [] then pySplitAux [] cs else acc.reverse :: pySplitAux [] cs
    else pySplitAux (c :: acc) cs

/-- Python str.split with no arguments: split on runs of whitespace, discarding
empty chunks. -/
def pySplit (text : List Char) : List (List Char) := pySplitAux [] text

/-- The token list built by BytePairEncoder.encode: each whitespace-separated
word of the text is rewritten to characters plus the marker and the merge
loop is run on it; the per-word results are concatenated. -/
def encodeTokens (st : BPEState) (text : List Char) : List Symb :=
  (pySplit text).flatMap (fun wd => encodeWordLoop st.merges (initRep wd))

/-- The final id lookup of encode: vocab.get(token, vocab.get(end-of-word
marker)) - a token absent from vocab falls back to the marker's id, and the
result is missing only when the marker itself is absent from vocab. -/
def encodeTokenId (vocab : List (Symb × Nat)) (t : Symb) : Option Nat :=
  match alookup vocab t with
  | some i => some i
  | none => alookup vocab endw

/-- BytePairEncoder.encode: token ids (an id is an optional value, since the
Python expression yields None when both lookups miss). -/
def encode (st : BPEState) (text : List Char) : List (Option Nat) :=
  (encodeTokens st text).map (fun t => encodeTokenId st.vocab t)

/-- The id-to-symbol lookup of decode: inverse_vocab.get(id, marker). -/
def decodeTokenSym (inv : List (Nat × Symb)) (i : Nat) : Symb :=
  (alookup inv i).getD endw

/-- Python str.replace of every left-to-right non-overlapping occurrence of the
four-character end-of-word marker by a single space. -/
def replaceAllMarker : List Char → List Char
  | '<' :: '/' :: 'w' :: '>' :: cs => ' ' :: replaceAllMarker cs
  | c :: cs => c :: replaceAllMarker cs
  | [] => []

/-- Python str.strip with no arguments: drop leading and trailing whitespace. -/
def pyStrip (l : List Char) : List Char :=
  (((l.dropWhile Char.isWhitespace).reverse).dropWhile Char.isWhitespace).reverse

/-- BytePairEncoder.decode: map each id through inverse_vocab (missing ids
degrade to the marker), concatenate, turn markers into spaces, and strip. -/
def decode (st : BPEState) (ids : List Nat) : List Char :=
  pyStrip (replaceAllMarker ((ids.map (fun i => decodeTokenSym st.inv i)).flatten))

/-- Whether the literal end-of-word marker occurs as a contiguous substring. -/
def hasMarker : List Char → Bool
  | '<' :: '/' :: 'w' :: '>' :: _ => true
  | _ :: cs => hasMarker cs
  | [] => false

/-- Checks, mirroring the training loop step by step, that no merge ever
produces a token string that is already a key of vocab (so no dict entry is
ever overwritten); used as the proviso of the amended vocabulary-bijection
claim. -/
def collisionFreeLoop (target : Nat) : Nat → BPEState → Bool
  | 0, _ => true
  | fuel + 1, st =>
    if st.counter < target then
      match selectedPair st with
      | none => true
      | some bp =>
        decide ((bp.1 ++ bp.2) ∉ st.vocab.map Prod.fst) &&
          collisionFreeLoop target fuel (applyMerge st bp)
    else true

/-- Modelled from the spec (section 4.2): replace every non-overlapping
left-to-right adjacent occurrence of the pair by the concatenation of its two
members, never re-examining a symbol just produced by a merge. -/
def specMergeAll (f s : Symb) : List Symb → List Symb
  | x :: y :: rest =>
    if x = f ∧ y = s then (f ++ s) :: specMergeAll f s rest
    else x :: specMergeAll f s (y :: rest)
  | l => l

/-- Modelled from the spec: the first occurrence of each element, in
left-to-right order of first occurrence. -/
def firstOccurrences {α : Type} [DecidableEq α] (l : List α) : List α :=
  l.foldl dedupStep []

/-- Modelled from the spec (section 4.4): the word's adjacent pairs enumerated
in left-to-right order of first occurrence. -/
def specEnumPairs (w : List Symb) : List (Symb × Symb) :=
  firstOccurrences (adjPairs w)

/-- Modelled from the spec (section 4.4): the first enumerated pair that has an
entry in the merge-rule table. -/
def specSelectBigram (ms : List ((Symb × Symb) × Symb)) (w : List Symb) : Option (Symb × Symb) :=
  (specEnumPairs w).find? (fun p => (alookup ms p).isSome)

/-- All adjacent pairs of all corpus words, scanning words in corpus
enumeration order and each word left to right. -/
def corpusAdjStream (wf : List (List Symb × Nat)) : List (Symb × Symb) :=
  wf.flatMap (fun wc => adjPairs wc.1)

/-- Modelled from the spec (section 3): the summed corpus frequency of a pair,
each word contributing its frequency once per adjacent occurrence. -/
def pairFreq (wf : List (List Symb × Nat)) (p : Symb × Symb) : Nat :=
  (wf.map (fun wc => wc.2 * ((adjPairs wc.1).count p))).sum

/-- Maximum of a list of naturals (0 when empty). -/
def maxNat (l : List Nat) : Nat := l.foldl max 0

/-- Modelled from the spec (section 4.3c): among the pairs enumerated by first
adjacent occurrence across the corpus, the first one whose summed frequency
attains the maximum. -/
def specBestPair (wf : List (List Symb × Nat)) : Option (Symb × Symb) :=
  (firstOccurrences (corpusAdjStream wf)).find?
    (fun p => decide (pairFreq wf p = maxNat ((firstOccurrences (corpusAdjStream wf)).map (pairFreq wf))))

/-- Fold a stream of (key, count) increments into a counter table. -/
def foldBump {α : Type} [DecidableEq α] (ps : List (α × Nat)) (stream : List (α × Nat)) :
    List (α × Nat) :=
  stream.foldl (fun ps e => bump ps e.1 e.2) ps

/-- The stream of (pair, word frequency) increments processed by getPairs, in
processing order. -/
def pairStream (wf : List (List Symb × Nat)) : List ((Symb × Symb) × Nat) :=
  wf.flatMap (fun wc => (adjPairs wc.1).map (fun p => (p, wc.2)))

/-- The total count contributed to a key by a stream of increments. -/
def streamSum {α : Type} [DecidableEq α] (a : α) (stream : List (α × Nat)) : Nat :=
  (stream.map (fun e => if e.1 = a then e.2 else 0)).sum

/-- The maximal count in a (key, count) table. -/
def maxVal {α : Type} (l : List (α × Nat)) : Nat := maxNat (l.map (fun e => e.2))

/-- Invariant maintained by training unconditionally: inverse_vocab keys are
exactly 0..counter-1 in order, vocab keys are distinct, every vocab id is
below the counter, and inverse_vocab inverts vocab - so an id obtained from
vocab always maps back to its symbol, even when a merge token overwrites an
existing vocab entry. -/
def VocabInvAgrees (st : BPEState) : Prop :=
  st.inv.map Prod.fst = List.range st.counter ∧
  (st.vocab.map Prod.fst).Nodup ∧
  (∀ e ∈ st.vocab, e.2 < st.counter) ∧
  (∀ e ∈ st.vocab, alookup st.inv e.2 = some e.1)

/-- Invariant maintained by training when no merge token collides with an
existing vocab key: vocab is the initial table extended append-only by the
merge tokens with consecutive ids, the counter equals the table size,
inverse_vocab mirrors vocab, keys are distinct, and every merge rule maps a
pair to the concatenation of its members. -/
def VocabAppendOnly (initV : List (Symb × Nat)) (st : BPEState) : Prop :=
  st.vocab = initV ++ enumFrom initV.length (st.merges.map Prod.snd) ∧
  st.counter = st.vocab.length ∧
  st.inv = st.vocab.map (fun e => (e.2, e.1)) ∧
  (st.vocab.map Prod.fst).Nodup ∧
  (∀ e ∈ st.merges, e.2 = e.1.1 ++ e.1.2)

/-! ### Association-list lemmas -/

theorem alookup_isSome_iff {α β : Type} [DecidableEq α] (ps : List (α × β)) (a : α) :
    (alookup ps a).isSome = true ↔ a ∈ ps.map Prod.fst := by
  induction ps with
  | nil => simp [alookup]
  | cons e rest ih =>
    by_cases h : e.1 = a
    · simp [alookup, h]
    · simp only [alookup, h, if_false, List.map_cons, List.mem_cons, ih]
      constructor
      · intro hm
        exact Or.inr hm
      · intro hm
        rcases hm with hm | hm
        · exact absurd hm.symm h
        · exact hm

theorem alookup_eq_none_iff {α β : Type} [DecidableEq α] (ps : List (α × β)) (a : α) :
    alookup ps a = none ↔ a ∉ ps.map Prod.fst := by
  rw [← alookup_isSome_iff]
  cases alookup ps a <;> simp

theorem alookup_mem {α β : Type} [DecidableEq α] {ps : List (α × β)} {a : α} {b : β}
    (h : alookup ps a = some b) : (a, b) ∈ ps := by
  induction ps with
  | nil => simp [alookup] at h
  | cons e rest ih =>
    by_cases he : e.1 = a
    · rw [alookup, if_pos he] at h
      injection h with h
      subst h
      subst he
      exact List.mem_cons_self _ _
    · rw [alookup, if_neg he] at h
      exact List.mem_cons_of_mem _ (ih h)

theorem alookup_append {α β : Type} [DecidableEq α] (l1 l2 : List (α × β)) (a : α) :
    alookup (l1 ++ l2) a =
      match alookup l1 a with
      | some b => some b
      | none => alookup l2 a := by
  induction l1 with
  | nil => simp [alookup]
  | cons e rest ih =>
    by_cases he : e.1 = a
    · simp [alookup, he]
    · simp [alookup, he, ih]

theorem aset_of_not_mem {α β : Type} [DecidableEq α] {ps : List (α × β)} {k : α}
    (h : k ∉ ps.map Prod.fst) (v : β) : aset ps k v = ps ++ [(k, v)] := by
  induction ps with
  | nil => simp [aset]
  | cons e rest ih =>
    simp only [List.map_cons, List.mem_cons] at h
    push_neg at h
    rw [aset, if_neg (fun he => h.1 he.symm), ih h.2]
    simp

theorem map_fst_aset {α β : Type} [DecidableEq α] (ps : List (α × β)) (k : α) (v : β) :
    (aset ps k v).map Prod.fst =
      if k ∈ ps.map Prod.fst then ps.map Prod.fst else ps.map Prod.fst ++ [k] := by
  induction ps with
  | nil => simp [aset]
  | cons e rest ih =>
    by_cases he : e.1 = k
    · simp [aset, he]
    · have : ¬ k = e.1 := fun h => he h.symm
      by_cases hm : k ∈ rest.map Prod.fst <;>
        simp [aset, he, ih, hm, this]

theorem length_aset {α β : Type} [DecidableEq α] (ps : List (α × β)) (k : α) (v : β) :
    (aset ps k v).length =
      if k ∈ ps.map Prod.fst then ps.length else ps.length + 1 := by
  have h1 : (aset ps k v).length = ((aset ps k v).map Prod.fst).length := by
    rw [List.length_map]
  have h2 : ps.length = (ps.map Prod.fst).length := by
    rw [List.length_map]
  rw [h1, map_fst_aset]
  by_cases hm : k ∈ ps.map Prod.fst <;> simp [hm, ← h2]

theorem mem_map_fst_aset {α β : Type} [DecidableEq α] {ps : List (α × β)} {a : α}
    (h : a ∈ ps.map Prod.fst) (k : α) (v : β) : a ∈ (aset ps k v).map Prod.fst := by
  rw [map_fst_aset]
  by_cases hm : k ∈ ps.map Prod.fst <;> simp [hm, h]

theorem nodup_map_fst_aset {α β : Type} [DecidableEq α] {ps : List (α × β)}
    (h : (ps.map Prod.fst).Nodup) (k : α) (v : β) : ((aset ps k v).map Prod.fst).Nodup := by
  rw [map_fst_aset]
  by_cases hm : k ∈ ps.map Prod.fst
  · simpa [hm]
  · simp only [hm, if_false]
    refine List.Nodup.append h (List.nodup_singleton k) ?_
    intro a ha hb
    rw [List.mem_singleton] at hb
    exact hm (hb ▸ ha)

theorem mem_aset {α β : Type} [DecidableEq α] {ps : List (α × β)} {k : α} {v : β} {e : α × β}
    (hnd : (ps.map Prod.fst).Nodup) (h : e ∈ aset ps k v) :
    e = (k, v) ∨ (e ∈ ps ∧ e.1 ≠ k) := by
  induction ps with
  | nil =>
    simp [aset] at h
    exact Or.inl h
  | cons hd rest ih =>
    simp only [List.map_cons, List.nodup_cons] at hnd
    by_cases he : hd.1 = k
    · rw [aset, if_pos he] at h
      rcases List.mem_cons.1 h with h | h
      · exact Or.inl h
      · refine Or.inr ⟨List.mem_cons_of_mem _ h, fun hek => ?_⟩
        exact hnd.1 (he ▸ hek ▸ List.mem_map_of_mem Prod.fst h)
    · rw [aset, if_neg he] at h
      rcases List.mem_cons.1 h with h | h
      · subst h
        exact Or.inr ⟨List.mem_cons_self _ _, he⟩
      · rcases ih hnd.2 h with h | h
        · exact Or.inl h
        · exact Or.inr ⟨List.mem_cons_of_mem _ h.1, h.2⟩

theorem map_fst_bump {α : Type} [DecidableEq α] (ps : List (α × Nat)) (k : α) (n : Nat) :
    (bump ps k n).map Prod.fst =
      if k ∈ ps.map Prod.fst then ps.map Prod.fst else ps.map Prod.fst ++ [k] := by
  induction ps with
  | nil => simp [bump]
  | cons e rest ih =>
    by_cases he : e.1 = k
    · simp [bump, he]
    · have : ¬ k = e.1 := fun h => he h.symm
      by_cases hm : k ∈ rest.map Prod.fst <;>
        simp [bump, he, ih, hm, this]

theorem alookup_bump {α : Type} [DecidableEq α] (ps : List (α × Nat)) (k : α) (n : Nat) (a : α) :
    alookup (bump ps k n) a =
      if a = k then some ((alookup ps k).getD 0 + n) else alookup ps a := by
  induction ps with
  | nil =>
    by_cases h : a = k
    · subst h
      simp [bump, alookup]
    · simp [bump, alookup, h, show ¬k = a from fun hh => h hh.symm]
  | cons e rest ih =>
    by_cases he : e.1 = k
    · subst he
      by_cases ha : a = e.1
      · subst ha
        simp [bump, alookup]
      · simp [bump, alookup, ha, show ¬e.1 = a from fun hh => ha hh.symm]
    · by_cases ha : e.1 = a
      · subst ha
        simp [bump, alookup, show ¬e.1 = k from he]
      · simp [bump, alookup, he, ha, ih]

/-! ### Merge-applier lemmas -/

theorem mergeAux_flatten (f s : Symb) (xs : List Symb) :
    ∀ cur, (mergeAux f s cur xs).flatten = cur ++ xs.flatten := by
  induction xs with
  | nil => intro cur; simp [mergeAux]
  | cons y rest ih =>
    intro cur
    by_cases h : cur = f ∧ y = s
    · rw [mergeAux, if_pos h, ih]
      simp [h.1, h.2]
    · rw [mergeAux, if_neg h]
      simp [ih]

theorem mergeWord_flatten (w : List Symb) (f s : Symb) :
    (mergeWord w f s).flatten = w.flatten := by
  cases w with
  | nil => rfl
  | cons x xs => simpa using mergeAux_flatten f s xs x

theorem mergeAux_length_le (f s : Symb) (xs : List Symb) :
    ∀ cur, (mergeAux f s cur xs).length ≤ xs.length + 1 := by
  induction xs with
  | nil => intro cur; simp [mergeAux]
  | cons y rest ih =>
    intro cur
    by_cases h : cur = f ∧ y = s
    · rw [mergeAux, if_pos h]
      exact le_trans (ih _) (by simp)
    · rw [mergeAux, if_neg h]
      simpa using ih y

theorem mergeAux_length_lt (f s : Symb) (xs : List Symb) :
    ∀ cur, (f, s) ∈ adjPairs (cur :: xs) → (mergeAux f s cur xs).length ≤ xs.length := by
  induction xs with
  | nil => intro cur hm; simp [adjPairs] at hm
  | cons y rest ih =>
    intro cur hm
    by_cases h : cur = f ∧ y = s
    · rw [mergeAux, if_pos h]
      simpa using mergeAux_length_le f s rest (f ++ s)
    · rw [mergeAux, if_neg h]
      rw [adjPairs, List.mem_cons] at hm
      rcases hm with hm | hm
      · rw [Prod.mk.injEq] at hm
        exact absurd ⟨hm.1.symm, hm.2.symm⟩ h
      · simpa using ih y hm

theorem mergeWord_length_lt {w : List Symb} {f s : Symb}
    (hm : (f, s) ∈ adjPairs w) : (mergeWord w f s).length < w.length := by
  cases w with
  | nil => simp [adjPairs] at hm
  | cons x xs =>
    rw [mergeWord]
    exact lt_of_le_of_lt (mergeAux_length_lt f s xs x hm) (by simp)

theorem mergeAux_eq_specMergeAll {s : Symb} (hs : s ≠ []) (f : Symb) (xs : List Symb) :
    ∀ cur, mergeAux f s cur xs = specMergeAll f s (cur :: xs) := by
  induction xs with
  | nil => intro cur; simp [mergeAux, specMergeAll]
  | cons y rest ih =>
    intro cur
    by_cases h : cur = f ∧ y = s
    · rw [mergeAux, if_pos h, ih (f ++ s), specMergeAll, if_pos ⟨h.1, h.2⟩]
      cases rest with
      | nil => simp [specMergeAll]
      | cons z rs =>
        have hne : ¬(f ++ s = f ∧ z = s) := by
          rintro ⟨h1, -⟩
          apply hs
          have := congrArg List.length h1
          simpa using this
        rw [specMergeAll, if_neg hne]
    · rw [mergeAux, if_neg h, ih y, specMergeAll, if_neg h]

theorem mergeWord_eq_specMergeAll {s : Symb} (hs : s ≠ []) (w : List Symb) (f : Symb) :
    mergeWord w f s = specMergeAll f s w := by
  cases w with
  | nil => rfl
  | cons x xs => exact mergeAux_eq_specMergeAll hs f xs x

theorem mergeAux_of_not_mem (f s : Symb) (xs : List Symb) :
    ∀ cur, (f, s) ∉ adjPairs (cur :: xs) → mergeAux f s cur xs = cur :: xs := by
  induction xs with
  | nil => intro cur _; rfl
  | cons y rest ih =>
    intro cur hm
    rw [adjPairs, List.mem_cons] at hm
    push_neg at hm
    have h : ¬(cur = f ∧ y = s) := by
      rintro ⟨h1, h2⟩
      exact hm.1 (by rw [h1, h2])
    rw [mergeAux, if_neg h, ih y hm.2]

theorem mergeWord_of_not_mem {w : List Symb} {f s : Symb}
    (hm : (f, s) ∉ adjPairs w) : mergeWord w f s = w := by
  cases w with
  | nil => rfl
  | cons x xs => exact mergeAux_of_not_mem f s xs x hm

/-! ### Pair-frequency table lemmas -/

theorem streamSum_nil {α : Type} [DecidableEq α] (a : α) : streamSum a [] = 0 := rfl

theorem streamSum_cons {α : Type} [DecidableEq α] (a : α) (e : α × Nat) (rest : List (α × Nat)) :
    streamSum a (e :: rest) = (if e.1 = a then e.2 else 0) + streamSum a rest := by
  simp [streamSum]

theorem streamSum_append {α : Type} [DecidableEq α] (a : α) (s1 s2 : List (α × Nat)) :
    streamSum a (s1 ++ s2) = streamSum a s1 + streamSum a s2 := by
  simp [streamSum]

theorem map_fst_foldBump {α : Type} [DecidableEq α] (stream : List (α × Nat)) :
    ∀ ps : List (α × Nat),
      (foldBump ps stream).map Prod.fst = (stream.map Prod.fst).foldl dedupStep (ps.map Prod.fst) := by
  induction stream with
  | nil => intro ps; rfl
  | cons e rest ih =>
    intro ps
    have h1 : foldBump ps (e :: rest) = foldBump (bump ps e.1 e.2) rest := rfl
    rw [h1, ih, map_fst_bump]
    rfl

theorem alookup_foldBump_some {α : Type} [DecidableEq α] (stream : List (α × Nat)) :
    ∀ (ps : List (α × Nat)) (a : α) (v : Nat), alookup ps a = some v →
      alookup (foldBump ps stream) a = some (v + streamSum a stream) := by
  induction stream with
  | nil => intro ps a v h; simpa [foldBump, streamSum] using h
  | cons e rest ih =>
    intro ps a v h
    have h1 : foldBump ps (e :: rest) = foldBump (bump ps e.1 e.2) rest := rfl
    rw [h1]
    by_cases ha : a = e.1
    · have h2 : alookup (bump ps e.1 e.2) a = some (v + e.2) := by
        rw [alookup_bump, if_pos ha, ← ha, h]
        rfl
      rw [ih _ _ _ h2, streamSum_cons, if_pos ha.symm, Nat.add_assoc]
    · have h2 : alookup (bump ps e.1 e.2) a = some v := by
        rw [alookup_bump, if_neg ha, h]
      rw [ih _ _ _ h2, streamSum_cons, if_neg (fun hh => ha hh.symm), Nat.zero_add]

theorem alookup_foldBump_none {α : Type} [DecidableEq α] (stream : List (α × Nat)) :
    ∀ (ps : List (α × Nat)) (a : α), alookup ps a = none →
      alookup (foldBump ps stream) a =
        if a ∈ stream.map Prod.fst then some (streamSum a stream) else none := by
  induction stream with
  | nil => intro ps a h; simpa [foldBump] using h
  | cons e rest ih =>
    intro ps a h
    have h1 : foldBump ps (e :: rest) = foldBump (bump ps e.1 e.2) rest := rfl
    rw [h1]
    by_cases ha : a = e.1
    · have h2 : alookup (bump ps e.1 e.2) a = some e.2 := by
        rw [alookup_bump, if_pos ha, ← ha, h]
        simp
      have hmem : a ∈ (e :: rest).map Prod.fst := by
        simp [ha]
      rw [alookup_foldBump_some rest _ _ _ h2, streamSum_cons, if_pos ha.symm, if_pos hmem]
    · have h2 : alookup (bump ps e.1 e.2) a = none := by
        rw [alookup_bump, if_neg ha, h]
      rw [ih _ _ h2]
      have hss : streamSum a (e :: rest) = streamSum a rest := by
        rw [streamSum_cons, if_neg (fun hh => ha hh.symm), Nat.zero_add]
      have hmem : (a ∈ (e :: rest).map Prod.fst) ↔ (a ∈ rest.map Prod.fst) := by
        simp [ha]
      rw [hss]
      by_cases hm : a ∈ rest.map Prod.fst
      · rw [if_pos hm, if_pos (hmem.2 hm)]
      · rw [if_neg hm, if_neg (fun hh => hm (hmem.1 hh))]

theorem getPairs_eq_foldBump (wf : List (List Symb × Nat)) :
    getPairs wf = foldBump [] (pairStream wf) := by
  have key : ∀ (wf : List (List Symb × Nat)) (ps : List ((Symb × Symb) × Nat)),
      wf.foldl (fun ps wc => (adjPairs wc.1).foldl (fun ps p => bump ps p wc.2) ps) ps =
        foldBump ps (pairStream wf) := by
    intro wf
    induction wf with
    | nil => intro ps; rfl
    | cons wc rest ih =>
      intro ps
      have h1 : pairStream (wc :: rest) =
          (adjPairs wc.1).map (fun p => (p, wc.2)) ++ pairStream rest := by
        simp [pairStream]
      rw [List.foldl_cons, ih, h1]
      have h2 : foldBump ps ((adjPairs wc.1).map (fun p => (p, wc.2)) ++ pairStream rest) =
          foldBump (foldBump ps ((adjPairs wc.1).map (fun p => (p, wc.2)))) (pairStream rest) := by
        simp [foldBump, List.foldl_append]
      rw [h2]
      congr 1
      simp [foldBump, List.foldl_map]
  exact key wf []

theorem map_fst_pairStream (wf : List (List Symb × Nat)) :
    (pairStream wf).map Prod.fst = corpusAdjStream wf := by
  induction wf with
  | nil => rfl
  | cons wc rest ih =>
    have h1 : pairStream (wc :: rest) =
        (adjPairs wc.1).map (fun p => (p, wc.2)) ++ pairStream rest := by
      simp [pairStream]
    have h2 : corpusAdjStream (wc :: rest) = adjPairs wc.1 ++ corpusAdjStream rest := by
      simp [corpusAdjStream]
    rw [h1, h2, List.map_append, ih, List.map_map]
    simp only [List.append_cancel_right_eq]
    exact List.map_id _

theorem keys_getPairs (wf : List (List Symb × Nat)) :
    (getPairs wf).map Prod.fst = firstOccurrences (corpusAdjStream wf) := by
  rw [getPairs_eq_foldBump, map_fst_foldBump, map_fst_pairStream]
  rfl

theorem streamSum_map_pair (p : Symb × Symb) (c : Nat) (l : List (Symb × Symb)) :
    streamSum p (l.map (fun q => (q, c))) = c * l.count p := by
  induction l with
  | nil => simp [streamSum]
  | cons q rest ih =>
    rw [List.map_cons, streamSum_cons, ih, List.count_cons]
    by_cases h : q = p
    · simp [h, Nat.mul_add, Nat.add_comm]
    · simp [h, fun hh : p = q => h hh.symm]

theorem pairFreq_eq_streamSum (wf : List (List Symb × Nat)) (p : Symb × Symb) :
    pairFreq wf p = streamSum p (pairStream wf) := by
  induction wf with
  | nil => simp [pairFreq, pairStream, streamSum]
  | cons wc rest ih =>
    have h1 : pairStream (wc :: rest) =
        (adjPairs wc.1).map (fun q => (q, wc.2)) ++ pairStream rest := by
      simp [pairStream]
    rw [h1, streamSum_append, streamSum_map_pair, ← ih]
    simp [pairFreq]

theorem alookup_getPairs_of_mem {wf : List (List Symb × Nat)} {p : Symb × Symb}
    (h : p ∈ corpusAdjStream wf) : alookup (getPairs wf) p = some (pairFreq wf p) := by
  rw [getPairs_eq_foldBump, alookup_foldBump_none (pairStream wf) [] p rfl, map_fst_pairStream,
    if_pos h, pairFreq_eq_streamSum]

theorem alookup_getPairs_of_not_mem {wf : List (List Symb × Nat)} {p : Symb × Symb}
    (h : p ∉ corpusAdjStream wf) : alookup (getPairs wf) p = none := by
  rw [getPairs_eq_foldBump, alookup_foldBump_none (pairStream wf) [] p rfl, map_fst_pairStream,
    if_neg h]

theorem mem_foldl_dedupStep {α : Type} [DecidableEq α] (l : List α) :
    ∀ (ks : List α) (a : α), a ∈ l.foldl dedupStep ks ↔ a ∈ ks ∨ a ∈ l := by
  induction l with
  | nil => intro ks a; simp
  | cons x rest ih =>
    intro ks a
    rw [List.foldl_cons, ih]
    by_cases hx : x ∈ ks
    · simp only [dedupStep, if_pos hx, List.mem_cons]
      constructor
      · rintro (h | h)
        · exact Or.inl h
        · exact Or.inr (Or.inr h)
      · rintro (h | h | h)
        · exact Or.inl h
        · exact Or.inl (h ▸ hx)
        · exact Or.inr h
    · simp only [dedupStep, if_neg hx, List.mem_append, List.mem_singleton, List.mem_cons]
      tauto

theorem nodup_foldl_dedupStep {α : Type} [DecidableEq α] (l : List α) :
    ∀ ks : List α, ks.Nodup → (l.foldl dedupStep ks).Nodup := by
  induction l with
  | nil => intro ks h; exact h
  | cons x rest ih =>
    intro ks h
    rw [List.foldl_cons]
    refine ih _ ?_
    by_cases hx : x ∈ ks
    · simpa [dedupStep, hx] using h
    · rw [dedupStep, if_neg hx]
      refine List.Nodup.append h (List.nodup_singleton x) ?_
      intro a ha hb
      rw [List.mem_singleton] at hb
      exact hx (hb ▸ ha)

theorem nodup_firstOccurrences {α : Type} [DecidableEq α] (l : List α) :
    (firstOccurrences l).Nodup :=
  nodup_foldl_dedupStep l [] List.nodup_nil

theorem mem_firstOccurrences {α : Type} [DecidableEq α] (l : List α) (a : α) :
    a ∈ firstOccurrences l ↔ a ∈ l := by
  rw [firstOccurrences, mem_foldl_dedupStep]
  simp

theorem assoc_ext {α : Type} [DecidableEq α] :
    ∀ (ps : List (α × Nat)) (ks : List α) (fn : α → Nat),
      ps.map Prod.fst = ks → ks.Nodup → (∀ k ∈ ks, alookup ps k = some (fn k)) →
      ps = ks.map (fun k => (k, fn k)) := by
  intro ps
  induction ps with
  | nil =>
    intro ks fn hk _ _
    rw [← hk]
    rfl
  | cons e rest ih =>
    intro ks fn hk hnd hl
    rcases ks with _ | ⟨k, ks2⟩
    · simp at hk
    · rw [List.map_cons] at hk
      injection hk with hk1 hk2
      rw [List.nodup_cons] at hnd
      have he2 : e.2 = fn k := by
        have := hl k (List.mem_cons_self _ _)
        rw [alookup, if_pos hk1] at this
        injection this
      have hrest : ∀ k2 ∈ ks2, alookup rest k2 = some (fn k2) := by
        intro k2 hk2m
        have := hl k2 (List.mem_cons_of_mem _ hk2m)
        rw [alookup, if_neg] at this
        · exact this
        · rw [hk1]
          intro hh
          exact hnd.1 (hh ▸ hk2m)
      rw [List.map_cons, ← ih ks2 fn hk2 hnd.2 hrest]
      have : e = (k, fn k) := by
        cases e
        simp at hk1 he2 ⊢
        exact ⟨hk1, he2⟩
      rw [this]

theorem getPairs_entries (wf : List (List Symb × Nat)) :
    getPairs wf =
      (firstOccurrences (corpusAdjStream wf)).map (fun p => (p, pairFreq wf p)) := by
  refine assoc_ext _ _ _ (keys_getPairs wf) (nodup_firstOccurrences _) ?_
  intro p hp
  exact alookup_getPairs_of_mem ((mem_firstOccurrences _ _).1 hp)

/-! ### Python max lemmas -/

theorem maxNat_foldl (l : List Nat) : ∀ a : Nat, l.foldl max a = max a (maxNat l) := by
  induction l with
  | nil => intro a; simp [maxNat]
  | cons x rest ih =>
    intro a
    rw [List.foldl_cons, ih]
    have h1 : maxNat (x :: rest) = max x (maxNat rest) := by
      rw [maxNat, List.foldl_cons, ih (max 0 x)]
      rw [max_eq_right (Nat.zero_le x)]
    rw [h1, max_assoc]

theorem maxVal_cons {α : Type} (x : α × Nat) (xs : List (α × Nat)) :
    maxVal (x :: xs) = max x.2 (maxVal xs) := by
  rw [maxVal, List.map_cons, maxNat, List.foldl_cons, maxNat_foldl]
  rw [max_eq_right (Nat.zero_le x.2)]
  rfl

theorem le_maxVal_head {α : Type} (x : α × Nat) (xs : List (α × Nat)) :
    x.2 ≤ maxVal (x :: xs) := by
  rw [maxVal_cons]
  exact le_max_left _ _

theorem le_maxVal_tail {α : Type} (x : α × Nat) (xs : List (α × Nat)) :
    maxVal xs ≤ maxVal (x :: xs) := by
  rw [maxVal_cons]
  exact le_max_right _ _

theorem find_max_aux {α : Type} (xs : List (α × Nat)) :
    ∀ x : α × Nat,
      (x :: xs).find? (fun e => decide (e.2 = maxVal (x :: xs))) =
        some (xs.foldl (fun b y => if b.2 < y.2 then y else b) x) := by
  induction xs with
  | nil =>
    intro x
    have h1 : maxVal [x] = x.2 := by
      rw [maxVal_cons]
      exact max_eq_left (Nat.zero_le _)
    rw [h1, List.foldl_nil, List.find?_cons_of_pos _ (by simp)]
  | cons y ys ih =>
    intro x
    by_cases hx : x.2 = maxVal (x :: y :: ys)
    · have hyle : y.2 ≤ x.2 := by
        rw [hx]
        exact le_trans (le_maxVal_head y ys) (le_maxVal_tail x (y :: ys))
      have hxy : ¬ x.2 < y.2 := Nat.not_lt.2 hyle
      have hMx : maxVal (x :: ys) = x.2 := by
        have h1 : maxVal ys ≤ x.2 := by
          rw [hx]
          exact le_trans (le_maxVal_tail y ys) (le_maxVal_tail x (y :: ys))
        rw [maxVal_cons]
        exact max_eq_left h1
      have hfix : ys.foldl (fun b y => if b.2 < y.2 then y else b) x = x := by
        have h2 := ih x
        rw [hMx] at h2
        rw [List.find?_cons_of_pos _ (by simp)] at h2
        injection h2 with h2
        exact h2.symm
      rw [List.find?_cons_of_pos _ (by simp [hx]), List.foldl_cons, if_neg hxy, hfix]
    · have hxlt : x.2 < maxVal (x :: y :: ys) :=
        lt_of_le_of_ne (le_maxVal_head x (y :: ys)) hx
      have hM2 : maxVal (y :: ys) = maxVal (x :: y :: ys) := by
        rcases max_choice x.2 (maxVal (y :: ys)) with h | h
        · rw [maxVal_cons x (y :: ys), h] at hx
          exact absurd rfl hx
        · rw [maxVal_cons x (y :: ys), h]
      rw [List.find?_cons_of_neg _ (by simp [hx])]
      by_cases hxy : x.2 < y.2
      · have h2 := ih y
        rw [hM2] at h2
        rw [List.foldl_cons, if_pos hxy]
        exact h2
      · have hylt : y.2 < maxVal (x :: y :: ys) :=
          lt_of_le_of_lt (Nat.not_lt.1 hxy) hxlt
        have hMxys : maxVal (x :: ys) = maxVal (x :: y :: ys) := by
          have hyM : maxVal ys = maxVal (y :: ys) := by
            rcases max_choice y.2 (maxVal ys) with h | h
            · exfalso
              rw [maxVal_cons y ys, h] at hM2
              rw [← hM2] at hylt
              exact Nat.lt_irrefl _ hylt
            · rw [maxVal_cons y ys, h]
          rw [maxVal_cons x ys, hyM, hM2]
          exact max_eq_right (le_of_lt hxlt)
        have h2 := ih x
        rw [hMxys] at h2
        rw [List.find?_cons_of_neg _ (by simp [hx])] at h2
        rw [List.find?_cons_of_neg _ (by simp [Nat.ne_of_lt hylt])]
        rw [List.foldl_cons, if_neg hxy]
        exact h2

theorem pyMax_eq_find {α : Type} (l : List (α × Nat)) :
    pyMax l = l.find? (fun e => decide (e.2 = maxVal l)) := by
  rcases l with _ | ⟨x, xs⟩
  · rfl
  · rw [pyMax, find_max_aux xs x]

/-! ### Sorting lemmas -/

theorem symLE_total (a : Symb) : ∀ b : Symb, symLE a b = true ∨ symLE b a = true := by
  induction a with
  | nil => intro b; left; rfl
  | cons x xs ih =>
    intro b
    cases b with
    | nil => right; rfl
    | cons y ys =>
      by_cases hxy : x = y
      · subst hxy
        rcases ih ys with h | h
        · left; simpa [symLE] using h
        · right; simpa [symLE] using h
      · rcases lt_or_gt_of_ne hxy with h | h
        · left
          simp [symLE, hxy, h]
        · right
          have hne : ¬ y = x := fun hh => hxy hh.symm
          simp only [symLE, if_neg hne]
          simpa using h

theorem symLE_trans (a : Symb) : ∀ b c : Symb,
    symLE a b = true → symLE b c = true → symLE a c = true := by
  induction a with
  | nil => intro b c _ _; rfl
  | cons x xs ih =>
    intro b c h1 h2
    cases b with
    | nil => simp [symLE] at h1
    | cons y ys =>
      cases c with
      | nil => simp [symLE] at h2
      | cons z zs =>
        by_cases hxy : x = y <;> by_cases hyz : y = z
        · subst hxy; subst hyz
          simp only [symLE, if_pos rfl] at h1 h2 ⊢
          exact ih ys zs h1 h2
        · subst hxy
          simp only [symLE, if_pos rfl, if_neg hyz] at h2
          simp only [symLE, if_neg hyz]
          exact h2
        · subst hyz
          simp only [symLE, if_pos rfl, if_neg hxy] at h1
          simp only [symLE, if_neg hxy]
          exact h1
        · simp only [symLE, if_neg hxy] at h1
          simp only [symLE, if_neg hyz] at h2
          have h3 : x < z := lt_trans (of_decide_eq_true h1) (of_decide_eq_true h2)
          simp [symLE, ne_of_lt h3, h3]

theorem mem_insertSorted (x : Symb) (l : List Symb) (a : Symb) :
    a ∈ insertSorted x l ↔ a = x ∨ a ∈ l := by
  induction l with
  | nil => simp [insertSorted]
  | cons y ys ih =>
    by_cases h : symLE x y = true
    · simp [insertSorted, h]
    · simp only [insertSorted, if_neg h, List.mem_cons, ih]
      tauto

theorem mem_sortSyms (l : List Symb) (a : Symb) : a ∈ sortSyms l ↔ a ∈ l := by
  induction l with
  | nil => simp [sortSyms]
  | cons x xs ih =>
    simp [sortSyms, mem_insertSorted, ih]

theorem insertSorted_perm (x : Symb) (l : List Symb) : (insertSorted x l).Perm (x :: l) := by
  induction l with
  | nil => exact List.Perm.refl _
  | cons y ys ih =>
    by_cases h : symLE x y = true
    · rw [insertSorted, if_pos h]
    · rw [insertSorted, if_neg h]
      exact List.Perm.trans (List.Perm.cons y ih) (List.Perm.swap x y ys)

theorem sortSyms_perm (l : List Symb) : (sortSyms l).Perm l := by
  induction l with
  | nil => exact List.Perm.refl _
  | cons x xs ih =>
    exact List.Perm.trans (insertSorted_perm x (sortSyms xs)) (List.Perm.cons x ih)

theorem nodup_sortSyms {l : List Symb} (h : l.Nodup) : (sortSyms l).Nodup :=
  (sortSyms_perm l).nodup_iff.2 h

theorem pairwise_insertSorted (x : Symb) (l : List Symb)
    (h : l.Pairwise (fun a b => symLE a b = true)) :
    (insertSorted x l).Pairwise (fun a b => symLE a b = true) := by
  induction l with
  | nil => simp [insertSorted]
  | cons y ys ih =>
    rw [List.pairwise_cons] at h
    by_cases hxy : symLE x y = true
    · rw [insertSorted, if_pos hxy, List.pairwise_cons]
      constructor
      · intro b hb
        rcases List.mem_cons.1 hb with hb | hb
        · exact hb ▸ hxy
        · exact symLE_trans x y b hxy (h.1 b hb)
      · rw [List.pairwise_cons]
        exact h
    · have hyx : symLE y x = true := by
        rcases symLE_total x y with h2 | h2
        · exact absurd h2 hxy
        · exact h2
      rw [insertSorted, if_neg hxy, List.pairwise_cons]
      constructor
      · intro b hb
        rcases (mem_insertSorted x ys b).1 hb with hb | hb
        · exact hb ▸ hyx
        · exact h.1 b hb
      · exact ih h.2

theorem sortSyms_sorted (l : List Symb) :
    (sortSyms l).Pairwise (fun a b => symLE a b = true) := by
  induction l with
  | nil => simp [sortSyms]
  | cons x xs ih => exact pairwise_insertSorted x (sortSyms xs) ih

/-! ### Id-enumeration lemmas -/

theorem map_fst_enumFrom {α : Type} : ∀ (i : Nat) (l : List α),
    (enumFrom i l).map Prod.fst = l := by
  intro i l
  induction l generalizing i with
  | nil => rfl
  | cons x xs ih => simp [enumFrom, ih]

theorem length_enumFrom {α : Type} : ∀ (i : Nat) (l : List α),
    (enumFrom i l).length = l.length := by
  intro i l
  induction l generalizing i with
  | nil => rfl
  | cons x xs ih => simp [enumFrom, ih]

theorem map_snd_enumFrom {α : Type} : ∀ (i : Nat) (l : List α),
    (enumFrom i l).map Prod.snd = List.range' i l.length := by
  intro i l
  induction l generalizing i with
  | nil => rfl
  | cons x xs ih => simp [enumFrom, ih, List.range']

theorem snd_bounds_of_mem_enumFrom {α : Type} :
    ∀ (i : Nat) (l : List α) (c : α) (j : Nat),
      (c, j) ∈ enumFrom i l → i ≤ j ∧ j < i + l.length := by
  intro i l
  induction l generalizing i with
  | nil => intro c j h; simp [enumFrom] at h
  | cons x xs ih =>
    intro c j h
    rcases List.mem_cons.1 h with h | h
    · injection h with h1 h2
      subst h2
      refine ⟨Nat.le_refl _, ?_⟩
      simp only [List.length_cons]
      omega
    · have h2 := ih (i + 1) c j h
      refine ⟨by omega, ?_⟩
      simp only [List.length_cons]
      omega

theorem alookup_mirror_enumFrom {α : Type} [DecidableEq α] :
    ∀ (i : Nat) (l : List α) (c : α) (j : Nat),
      (c, j) ∈ enumFrom i l →
      alookup ((enumFrom i l).map (fun e => (e.2, e.1))) j = some c := by
  intro i l
  induction l generalizing i with
  | nil => intro c j h; simp [enumFrom] at h
  | cons x xs ih =>
    intro c j h
    rcases List.mem_cons.1 h with h | h
    · injection h with h1 h2
      subst h1
      subst h2
      simp [enumFrom, alookup]
    · have hj := snd_bounds_of_mem_enumFrom (i + 1) xs c j h
      have hne : ¬ i = j := fun hh => absurd (hh ▸ hj.1) (by simp)
      simp only [enumFrom, List.map_cons, alookup, if_neg hne]
      exact ih (i + 1) c j h

/-! ### Training-state invariant lemmas -/

theorem trainStep_eq_some {st st2 : BPEState} (h : trainStep st = some st2) :
    ∃ bp, selectedPair st = some bp ∧ st2 = applyMerge st bp := by
  rw [trainStep, Option.map_eq_some'] at h
  rcases h with ⟨bp, h1, h2⟩
  exact ⟨bp, h1, h2.symm⟩

theorem nodup_collectChars_aux (wf : List (List Symb × Nat)) :
    ∀ acc : List Symb, acc.Nodup →
      (wf.foldl (fun acc wc => wc.1.foldl dedupStep acc) acc).Nodup := by
  induction wf with
  | nil => intro acc h; exact h
  | cons wc rest ih =>
    intro acc h
    exact ih _ (nodup_foldl_dedupStep wc.1 acc h)

theorem nodup_collectChars (wf : List (List Symb × Nat)) : (collectChars wf).Nodup :=
  nodup_collectChars_aux wf [] List.nodup_nil

theorem mem_collectChars_aux (wf : List (List Symb × Nat)) :
    ∀ (acc : List Symb) (a : Symb),
      a ∈ wf.foldl (fun acc wc => wc.1.foldl dedupStep acc) acc ↔
        a ∈ acc ∨ ∃ wc ∈ wf, a ∈ wc.1 := by
  induction wf with
  | nil => intro acc a; simp
  | cons wc rest ih =>
    intro acc a
    rw [List.foldl_cons, ih, mem_foldl_dedupStep]
    simp only [List.mem_cons]
    constructor
    · rintro ((h | h) | ⟨w, hw, hm⟩)
      · exact Or.inl h
      · exact Or.inr ⟨wc, Or.inl rfl, h⟩
      · exact Or.inr ⟨w, Or.inr hw, hm⟩
    · rintro (h | ⟨w, (hw | hw), hm⟩)
      · exact Or.inl (Or.inl h)
      · exact Or.inl (Or.inr (hw ▸ hm))
      · exact Or.inr ⟨w, hw, hm⟩

theorem mem_collectChars {wf : List (List Symb × Nat)} {a : Symb} :
    a ∈ collectChars wf ↔ ∃ wc ∈ wf, a ∈ wc.1 := by
  rw [collectChars, mem_collectChars_aux]
  simp

theorem vocabInv_initState (wc : List (List Char × Nat)) : VocabInvAgrees (initState wc) := by
  refine ⟨?_, ?_, ?_, ?_⟩
  · rw [initState]
    simp only [List.map_map]
    have h1 : (Prod.fst ∘ fun e : Symb × Nat => (e.2, e.1)) = Prod.snd := rfl
    rw [h1, map_snd_enumFrom]
    rw [List.range_eq_range']
  · rw [initState]
    simp only []
    rw [map_fst_enumFrom]
    exact nodup_sortSyms (nodup_collectChars _)
  · rw [initState]
    intro e he
    have := snd_bounds_of_mem_enumFrom 0 _ e.1 e.2 (by simpa using he)
    simpa using this.2
  · rw [initState]
    intro e he
    exact alookup_mirror_enumFrom 0 _ e.1 e.2 (by simpa using he)

theorem vocabInv_applyMerge {st : BPEState} (hInv : VocabInvAgrees st) (bp : Symb × Symb) :
    VocabInvAgrees (applyMerge st bp) := by
  obtain ⟨h1, h2, h3, h4⟩ := hInv
  have hcm : st.counter ∉ st.inv.map Prod.fst := by
    rw [h1, List.mem_range]
    exact Nat.lt_irrefl _
  have hinv2 : (applyMerge st bp).inv = st.inv ++ [(st.counter, bp.1 ++ bp.2)] := by
    rw [applyMerge]
    exact aset_of_not_mem hcm _
  refine ⟨?_, ?_, ?_, ?_⟩
  · rw [hinv2, List.map_append, h1]
    simp [applyMerge, List.range_succ]
  · rw [applyMerge]
    exact nodup_map_fst_aset h2 _ _
  · intro e he
    rcases mem_aset h2 he with he | he
    · rw [he]
      simp [applyMerge]
    · have := h3 e he.1
      simp only [applyMerge]
      omega
  · intro e he
    rcases mem_aset h2 he with he | he
    · rw [he, hinv2, alookup_append]
      have hnone : alookup st.inv st.counter = none := (alookup_eq_none_iff _ _).2 hcm
      rw [hnone]
      simp [alookup]
    · rw [hinv2, alookup_append, h4 e he.1]

theorem vocabInv_trainLoop (target : Nat) : ∀ (fuel : Nat) (st : BPEState),
    VocabInvAgrees st → VocabInvAgrees (trainLoop target fuel st) := by
  intro fuel
  induction fuel with
  | zero => intro st h; exact h
  | succ n ih =>
    intro st h
    rw [trainLoop]
    by_cases hc : st.counter < target
    · rw [if_pos hc]
      cases hts : trainStep st with
      | none => exact h
      | some st2 =>
        obtain ⟨bp, _, hst2⟩ := trainStep_eq_some hts
        exact ih st2 (hst2 ▸ vocabInv_applyMerge h bp)
    · rw [if_neg hc]
      exact h

theorem vocabInv_train (target : Nat) (wc : List (List Char × Nat)) :
    VocabInvAgrees (train target wc) :=
  vocabInv_trainLoop target 100 _ (vocabInv_initState wc)

theorem vocab_roundtrip {st : BPEState} (hInv : VocabInvAgrees st) {t : Symb} {i : Nat}
    (h : alookup st.vocab t = some i) : alookup st.inv i = some t :=
  hInv.2.2.2 (t, i) (alookup_mem h)

/-! ### Append-only training lemmas (no vocab-key collision) -/

theorem range_append_range' (n k : Nat) :
    List.range n ++ List.range' n k = List.range (n + k) := by
  rw [List.range_eq_range', List.range_eq_range']
  have h := List.range'_append 0 n k 1
  simp only [Nat.zero_add, Nat.one_mul] at h
  rw [h, Nat.add_comm k n]

theorem enumFrom_append_singleton {α : Type} :
    ∀ (i : Nat) (l : List α) (x : α),
      enumFrom i l ++ [(x, i + l.length)] = enumFrom i (l ++ [x]) := by
  intro i l
  induction l generalizing i with
  | nil => intro x; simp [enumFrom]
  | cons y ys ih =>
    intro x
    have h : i + (y :: ys).length = (i + 1) + ys.length := by
      simp only [List.length_cons]
      omega
    simp only [List.cons_append, enumFrom]
    rw [h, ih (i + 1) x]
    rfl

theorem appendOnly_ids {initV : List (Symb × Nat)} {st : BPEState}
    (hr : initV.map Prod.snd = List.range initV.length)
    (h1 : st.vocab = initV ++ enumFrom initV.length (st.merges.map Prod.snd)) :
    st.vocab.map Prod.snd = List.range st.vocab.length := by
  rw [h1, List.map_append, hr, map_snd_enumFrom, List.length_append, length_enumFrom,
    range_append_range']

theorem appendOnly_initState (wc : List (List Char × Nat)) :
    VocabAppendOnly (initState wc).vocab (initState wc) := by
  refine ⟨?_, ?_, ?_, ?_, ?_⟩
  · simp [initState, enumFrom]
  · simp [initState, length_enumFrom]
  · rfl
  · rw [initState]
    simp only []
    rw [map_fst_enumFrom]
    exact nodup_sortSyms (nodup_collectChars _)
  · intro e he
    simp [initState] at he

theorem initState_ids (wc : List (List Char × Nat)) :
    (initState wc).vocab.map Prod.snd = List.range (initState wc).vocab.length := by
  rw [initState]
  simp only []
  rw [map_snd_enumFrom, length_enumFrom, List.range_eq_range']

theorem appendOnly_applyMerge {initV : List (Symb × Nat)} {st : BPEState}
    (hr : initV.map Prod.snd = List.range initV.length)
    (hInv : VocabAppendOnly initV st) (bp : Symb × Symb)
    (hfresh : (bp.1 ++ bp.2) ∉ st.vocab.map Prod.fst) :
    VocabAppendOnly initV (applyMerge st bp) := by
  obtain ⟨h1, h2, h3, h4, h5⟩ := hInv
  have hids : st.vocab.map Prod.snd = List.range st.vocab.length := appendOnly_ids hr h1
  have hvocab2 : (applyMerge st bp).vocab = st.vocab ++ [(bp.1 ++ bp.2, st.counter)] := by
    rw [applyMerge]
    exact aset_of_not_mem hfresh _
  have hbpfresh : bp ∉ st.merges.map Prod.fst := by
    intro hmem
    rcases List.mem_map.1 hmem with ⟨e, he, hfst⟩
    have hval := h5 e he
    apply hfresh
    rw [h1, List.map_append, List.mem_append]
    right
    rw [map_fst_enumFrom]
    have hmem2 : e.2 ∈ st.merges.map Prod.snd := List.mem_map_of_mem _ he
    rw [hval, hfst] at hmem2
    exact hmem2
  have hmerges2 : (applyMerge st bp).merges = st.merges ++ [(bp, bp.1 ++ bp.2)] := by
    rw [applyMerge]
    exact aset_of_not_mem hbpfresh _
  have hcfresh : st.counter ∉ st.inv.map Prod.fst := by
    rw [h3, List.map_map]
    have hcomp : (Prod.fst ∘ fun e : Symb × Nat => (e.2, e.1)) = Prod.snd := rfl
    rw [hcomp, hids, h2]
    intro hh
    exact Nat.lt_irrefl _ (List.mem_range.1 hh)
  have hinv2 : (applyMerge st bp).inv = st.inv ++ [(st.counter, bp.1 ++ bp.2)] := by
    rw [applyMerge]
    exact aset_of_not_mem hcfresh _
  refine ⟨?_, ?_, ?_, ?_, ?_⟩
  · rw [hvocab2, hmerges2, h1, List.map_append]
    simp only [List.map_cons, List.map_nil]
    rw [List.append_assoc]
    congr 1
    have hc : st.counter = initV.length + (st.merges.map Prod.snd).length := by
      rw [h2, h1, List.length_append, length_enumFrom]
    rw [hc]
    exact enumFrom_append_singleton initV.length (st.merges.map Prod.snd) (bp.1 ++ bp.2)
  · rw [hvocab2, List.length_append]
    simp [applyMerge, h2]
  · rw [hvocab2, hinv2, List.map_append, ← h3]
    rfl
  · rw [applyMerge]
    exact nodup_map_fst_aset h4 _ _
  · intro e he
    rw [hmerges2] at he
    rcases List.mem_append.1 he with he | he
    · exact h5 e he
    · rw [List.mem_singleton] at he
      rw [he]

theorem appendOnly_trainLoop (target : Nat) {initV : List (Symb × Nat)}
    (hr : initV.map Prod.snd = List.range initV.length) :
    ∀ (fuel : Nat) (st : BPEState), VocabAppendOnly initV st →
      collisionFreeLoop target fuel st = true →
      VocabAppendOnly initV (trainLoop target fuel st) := by
  intro fuel
  induction fuel with
  | zero => intro st h _; exact h
  | succ n ih =>
    intro st h hcf
    rw [trainLoop]
    by_cases hc : st.counter < target
    · rw [if_pos hc]
      cases hsp : selectedPair st with
      | none =>
        have hts : trainStep st = none := by rw [trainStep, hsp]; rfl
        rw [hts]
        exact h
      | some bp =>
        have hts : trainStep st = some (applyMerge st bp) := by rw [trainStep, hsp]; rfl
        rw [hts]
        simp only [collisionFreeLoop, if_pos hc, hsp, Bool.and_eq_true, decide_eq_true_eq] at hcf
        exact ih _ (appendOnly_applyMerge hr h bp hcf.1) hcf.2
    · rw [if_neg hc]
      exact h

theorem appendOnly_train {target : Nat} {wc : List (List Char × Nat)}
    (hcf : collisionFreeLoop target 100 (initState wc) = true) :
    VocabAppendOnly (initState wc).vocab (train target wc) :=
  appendOnly_trainLoop target (initState_ids wc) 100 _ (appendOnly_initState wc) hcf

/-! ### Vocabulary-size lemmas -/

theorem applyMerge_vocab_length_le (st : BPEState) (bp : Symb × Symb) :
    st.vocab.length ≤ (applyMerge st bp).vocab.length := by
  rw [applyMerge]
  simp only []
  rw [length_aset]
  by_cases h : (bp.1 ++ bp.2) ∈ st.vocab.map Prod.fst <;> simp [h]

theorem applyMerge_vocab_length_le_succ (st : BPEState) (bp : Symb × Symb) :
    (applyMerge st bp).vocab.length ≤ st.vocab.length + 1 := by
  rw [applyMerge]
  simp only []
  rw [length_aset]
  by_cases h : (bp.1 ++ bp.2) ∈ st.vocab.map Prod.fst <;> simp [h]

theorem trainLoop_vocab_length_mono (target : Nat) :
    ∀ (fuel : Nat) (st : BPEState),
      st.vocab.length ≤ (trainLoop target fuel st).vocab.length := by
  intro fuel
  induction fuel with
  | zero => intro st; exact Nat.le_refl _
  | succ n ih =>
    intro st
    rw [trainLoop]
    by_cases hc : st.counter < target
    · rw [if_pos hc]
      cases hts : trainStep st with
      | none => exact Nat.le_refl _
      | some st2 =>
        obtain ⟨bp, _, hst2⟩ := trainStep_eq_some hts
        exact le_trans (hst2 ▸ applyMerge_vocab_length_le st bp) (ih st2)
    · rw [if_neg hc]

theorem trainLoop_counter_le (target : Nat) :
    ∀ (fuel : Nat) (st : BPEState),
      (trainLoop target fuel st).counter ≤ max target st.counter := by
  intro fuel
  induction fuel with
  | zero => intro st; exact le_max_right _ _
  | succ n ih =>
    intro st
    rw [trainLoop]
    by_cases hc : st.counter < target
    · rw [if_pos hc]
      cases hts : trainStep st with
      | none => exact le_max_right _ _
      | some st2 =>
        obtain ⟨bp, _, hst2⟩ := trainStep_eq_some hts
        have hc2 : st2.counter = st.counter + 1 := by
          rw [hst2, applyMerge]
        have h1 := ih st2
        rw [hc2] at h1
        have h2 : max target (st.counter + 1) = target := max_eq_left hc
        rw [h2] at h1
        exact le_trans h1 (le_max_left _ _)
    · rw [if_neg hc]
      exact le_max_right _ _

theorem trainLoop_len_le_counter (target : Nat) :
    ∀ (fuel : Nat) (st : BPEState), st.vocab.length ≤ st.counter →
      (trainLoop target fuel st).vocab.length ≤ (trainLoop target fuel st).counter := by
  intro fuel
  induction fuel with
  | zero => intro st h; exact h
  | succ n ih =>
    intro st h
    rw [trainLoop]
    by_cases hc : st.counter < target
    · rw [if_pos hc]
      cases hts : trainStep st with
      | none => exact h
      | some st2 =>
        obtain ⟨bp, _, hst2⟩ := trainStep_eq_some hts
        refine ih st2 ?_
        rw [hst2]
        have h1 := applyMerge_vocab_length_le_succ st bp
        have h3 : (applyMerge st bp).counter = st.counter + 1 := rfl
        omega
    · rw [if_neg hc]
      exact h

theorem initState_len_counter (wc : List (List Char × Nat)) :
    (initState wc).vocab.length = (initState wc).counter := by
  simp [initState, length_enumFrom]

theorem train_vocab_length_le (target : Nat) (wc : List (List Char × Nat)) :
    (train target wc).vocab.length ≤ max target (initState wc).vocab.length := by
  have h1 := trainLoop_len_le_counter target 100 (initState wc)
    (le_of_eq (initState_len_counter wc))
  have h2 := trainLoop_counter_le target 100 (initState wc)
  rw [train]
  refine le_trans h1 (le_trans h2 ?_)
  rw [initState_len_counter]

/-! ### Key-membership preservation -/

theorem trainLoop_mem_vocab (target : Nat) :
    ∀ (fuel : Nat) (st : BPEState) (a : Symb),
      a ∈ st.vocab.map Prod.fst → a ∈ (trainLoop target fuel st).vocab.map Prod.fst := by
  intro fuel
  induction fuel with
  | zero => intro st a h; exact h
  | succ n ih =>
    intro st a h
    rw [trainLoop]
    by_cases hc : st.counter < target
    · rw [if_pos hc]
      cases hts : trainStep st with
      | none => exact h
      | some st2 =>
        obtain ⟨bp, _, hst2⟩ := trainStep_eq_some hts
        refine ih st2 a ?_
        rw [hst2, applyMerge]
        exact mem_map_fst_aset h _ _
    · rw [if_neg hc]
      exact h

theorem mem_keys_foldl_bump {α β : Type} [DecidableEq α] (l : List β)
    (key : β → α) (val : β → Nat) :
    ∀ (ps : List (α × Nat)) (a : α), a ∈ ps.map Prod.fst →
      a ∈ (l.foldl (fun acc x => bump acc (key x) (val x)) ps).map Prod.fst := by
  induction l with
  | nil => intro ps a h; exact h
  | cons x rest ih =>
    intro ps a h
    rw [List.foldl_cons]
    refine ih _ a ?_
    rw [map_fst_bump]
    by_cases hm : key x ∈ ps.map Prod.fst
    · rw [if_pos hm]
      exact h
    · rw [if_neg hm]
      exact List.mem_append_left _ h

theorem endw_mem_initState {wc : List (List Char × Nat)} (h : wc ≠ []) :
    endw ∈ (initState wc).vocab.map Prod.fst := by
  rw [initState]
  simp only []
  rw [map_fst_enumFrom, mem_sortSyms, mem_collectChars]
  rcases wc with _ | ⟨e, rest⟩
  · exact absurd rfl h
  · have hkey : initRep e.1 ∈ (initWordFreqs (e :: rest)).map Prod.fst := by
      rw [initWordFreqs, List.foldl_cons]
      refine mem_keys_foldl_bump rest (fun x => initRep x.1) (fun x => x.2) _ _ ?_
      rw [map_fst_bump]
      simp [alookup]
    rcases List.mem_map.1 hkey with ⟨entry, hentry, hfst⟩
    refine ⟨entry, hentry, ?_⟩
    rw [hfst, initRep]
    simp [List.mem_append]

theorem endw_mem_train {target : Nat} {wc : List (List Char × Nat)} (h : wc ≠ []) :
    endw ∈ (train target wc).vocab.map Prod.fst :=
  trainLoop_mem_vocab target 100 _ endw (endw_mem_initState h)

theorem encodeTokenId_isSome {vocab : List (Symb × Nat)}
    (h : endw ∈ vocab.map Prod.fst) (t : Symb) : encodeTokenId vocab t ≠ none := by
  rw [encodeTokenId]
  cases hl : alookup vocab t with
  | some i => simp
  | none =>
    simp only []
    rw [Ne, alookup_eq_none_iff]
    intro hh
    exact hh h

/-! ### Encoder loop lemmas -/

theorem corpusAdjStream_single (w : List Symb) (c : Nat) :
    corpusAdjStream [(w, c)] = adjPairs w := by
  simp [corpusAdjStream]

theorem keys_getPairs_single (w : List Symb) :
    (getPairs [(w, 1)]).map Prod.fst = specEnumPairs w := by
  rw [keys_getPairs, corpusAdjStream_single]
  rfl

theorem firstOccurrences_eq_nil {α : Type} [DecidableEq α] {l : List α}
    (h : firstOccurrences l = []) : l = [] := by
  cases l with
  | nil => rfl
  | cons x xs =>
    exfalso
    have hm : x ∈ firstOccurrences (x :: xs) :=
      (mem_firstOccurrences _ _).2 (List.mem_cons_self _ _)
    rw [h] at hm
    simp at hm

theorem getPairs_single_eq_nil {w : List Symb} (h : getPairs [(w, 1)] = []) :
    adjPairs w = [] := by
  have h1 : (getPairs [(w, 1)]).map Prod.fst = [] := by
    rw [h]
    rfl
  rw [keys_getPairs, corpusAdjStream_single] at h1
  exact firstOccurrences_eq_nil h1

theorem findBigramIn_eq_spec (ms : List ((Symb × Symb) × Symb)) (w : List Symb) :
    findBigramIn ms (getPairs [(w, 1)]) = specSelectBigram ms w := by
  rw [findBigramIn, keys_getPairs_single]
  rfl

theorem encodeStep_eq_spec (ms : List ((Symb × Symb) × Symb)) (w : List Symb) :
    encodeStep ms w = (specSelectBigram ms w).map (fun p => mergeWord w p.1 p.2) := by
  rw [encodeStep]
  by_cases hp : getPairs [(w, 1)] = []
  · rw [if_pos hp]
    have h1 : specEnumPairs w = [] := by
      rw [specEnumPairs, getPairs_single_eq_nil hp]
      rfl
    rw [specSelectBigram, h1]
    rfl
  · rw [if_neg hp, findBigramIn_eq_spec]
    cases specSelectBigram ms w with
    | none => rfl
    | some p => rfl

theorem encodeStep_some {ms : List ((Symb × Symb) × Symb)} {w w2 : List Symb}
    (h : encodeStep ms w = some w2) :
    ∃ p, p ∈ adjPairs w ∧ w2 = mergeWord w p.1 p.2 := by
  rw [encodeStep_eq_spec, Option.map_eq_some'] at h
  rcases h with ⟨p, hp, hw2⟩
  refine ⟨p, ?_, hw2.symm⟩
  have hm := List.mem_of_find?_eq_some hp
  exact (mem_firstOccurrences _ _).1 hm

theorem encodeStep_length_lt {ms : List ((Symb × Symb) × Symb)} {w w2 : List Symb}
    (h : encodeStep ms w = some w2) : w2.length < w.length := by
  rcases encodeStep_some h with ⟨p, hp, hw2⟩
  rw [hw2]
  exact mergeWord_length_lt hp

theorem encodeStep_nil (ms : List ((Symb × Symb) × Symb)) : encodeStep ms [] = none := rfl

theorem encodeLoopFuel_nil (ms : List ((Symb × Symb) × Symb)) :
    ∀ k : Nat, encodeLoopFuel ms k [] = [] := by
  intro k
  cases k with
  | zero => rfl
  | succ m => rw [encodeLoopFuel, encodeStep_nil]

theorem encodeLoopFuel_stable (ms : List ((Symb × Symb) × Symb)) :
    ∀ (n : Nat) (w : List Symb), w.length ≤ n →
      ∀ k : Nat, encodeLoopFuel ms (n + k) w = encodeLoopFuel ms n w := by
  intro n
  induction n with
  | zero =>
    intro w hw k
    have hnil : w = [] := List.eq_nil_of_length_eq_zero (Nat.le_zero.1 hw)
    subst hnil
    rw [Nat.zero_add, encodeLoopFuel_nil]
    rfl
  | succ n ihn =>
    intro w hw k
    have h1 : n + 1 + k = (n + k) + 1 := by omega
    rw [h1, encodeLoopFuel, encodeLoopFuel]
    cases hs : encodeStep ms w with
    | none => rfl
    | some w2 =>
      have hlt := encodeStep_length_lt hs
      have hle : w2.length ≤ n := by omega
      exact ihn w2 hle k

theorem encodeLoopFuel_flatten (ms : List ((Symb × Symb) × Symb)) :
    ∀ (fuel : Nat) (w : List Symb),
      (encodeLoopFuel ms fuel w).flatten = w.flatten := by
  intro fuel
  induction fuel with
  | zero => intro w; rfl
  | succ n ih =>
    intro w
    rw [encodeLoopFuel]
    cases hs : encodeStep ms w with
    | none => rfl
    | some w2 =>
      rcases encodeStep_some hs with ⟨p, hp, hw2⟩
      rw [ih w2, hw2, mergeWord_flatten]

theorem encodeLoopFuel_length_le (ms : List ((Symb × Symb) × Symb)) :
    ∀ (fuel : Nat) (w : List Symb), (encodeLoopFuel ms fuel w).length ≤ w.length := by
  intro fuel
  induction fuel with
  | zero => intro w; exact Nat.le_refl _
  | succ n ih =>
    intro w
    rw [encodeLoopFuel]
    cases hs : encodeStep ms w with
    | none => exact Nat.le_refl _
    | some w2 => exact le_trans (ih w2) (le_of_lt (encodeStep_length_lt hs))

theorem encodeWordLoop_eq_self_iff (ms : List ((Symb × Symb) × Symb)) (w : List Symb) :
    encodeWordLoop ms w = w ↔ specSelectBigram ms w = none := by
  constructor
  · intro h
    cases hsp : specSelectBigram ms w with
    | none => rfl
    | some p =>
      exfalso
      have hstep : encodeStep ms w = some (mergeWord w p.1 p.2) := by
        rw [encodeStep_eq_spec, hsp]
        rfl
      have hlt := encodeStep_length_lt hstep
      cases hlen : w.length with
      | zero => omega
      | succ m =>
        have h2 : encodeWordLoop ms w = encodeLoopFuel ms m (mergeWord w p.1 p.2) := by
          rw [encodeWordLoop, hlen, encodeLoopFuel, hstep]
        have h3 := encodeLoopFuel_length_le ms m (mergeWord w p.1 p.2)
        rw [h2] at h
        have h4 := congrArg List.length h
        omega
  · intro h
    have hstep : encodeStep ms w = none := by
      rw [encodeStep_eq_spec, h]
      rfl
    rw [encodeWordLoop]
    cases w.length with
    | zero => rfl
    | succ m => rw [encodeLoopFuel, hstep]

/-! ### Text splitting, marker replacement and stripping lemmas -/

theorem pySplitAux_no_ws (w : List Char) :
    ∀ acc : List Char, (∀ c ∈ w, c.isWhitespace = false) →
      pySplitAux acc w = if acc = [] ∧ w = [] then [] else [acc.reverse ++ w] := by
  induction w with
  | nil =>
    intro acc _
    by_cases h : acc = []
    · simp [pySplitAux, h]
    · simp [pySplitAux, h]
  | cons c cs ih =>
    intro acc hws
    have hc : c.isWhitespace = false := hws c (List.mem_cons_self _ _)
    have hcs : ∀ x ∈ cs, x.isWhitespace = false := fun x hx => hws x (List.mem_cons_of_mem _ hx)
    rw [pySplitAux, hc]
    simp only [Bool.false_eq_true, if_false]
    rw [ih (c :: acc) hcs]
    have hne : ¬(c :: acc = [] ∧ cs = []) := by
      rintro ⟨h1, -⟩
      exact List.cons_ne_nil _ _ h1
    rw [if_neg hne, if_neg (by rintro ⟨-, h2⟩; exact List.cons_ne_nil _ _ h2)]
    simp [List.reverse_cons, List.append_assoc]

theorem pySplit_single {w : List Char} (hne : w ≠ [])
    (hws : ∀ c ∈ w, c.isWhitespace = false) : pySplit w = [w] := by
  rw [pySplit, pySplitAux_no_ws w [] hws]
  rw [if_neg (by rintro ⟨-, h2⟩; exact hne h2)]
  rfl

theorem flatten_map_singleton (w : List Char) : (w.map (fun c => [c])).flatten = w := by
  induction w with
  | nil => rfl
  | cons c cs ih => simp [ih]

theorem flatten_initRep (w : List Char) : (initRep w).flatten = w ++ endw := by
  rw [initRep, List.flatten_append, flatten_map_singleton]
  simp

theorem replaceAllMarker_marker_free :
    ∀ w : List Char, hasMarker w = false → replaceAllMarker (w ++ endw) = w ++ [' '] := by
  intro w
  induction w with
  | nil => intro _; decide
  | cons c cs ih =>
    intro h
    by_cases hpre : ∃ cs1, c = '<' ∧ cs = '/' :: 'w' :: '>' :: cs1
    · exfalso
      obtain ⟨cs1, hc, hcs⟩ := hpre
      subst hc
      subst hcs
      rw [hasMarker.eq_1] at h
      simp at h
    · push_neg at hpre
      have sc : ∀ tail : List Char, c = '<' → cs = '/' :: 'w' :: '>' :: tail → False := by
        intro tail hc hcs
        exact hpre tail hc hcs
      have h2 : hasMarker cs = false := by
        rw [hasMarker.eq_2 c cs sc] at h
        exact h
      have sc2 : ∀ tail : List Char, c = '<' → cs ++ endw = '/' :: 'w' :: '>' :: tail → False := by
        intro tail hc hcat
        rcases cs with _ | ⟨a1, _ | ⟨a2, _ | ⟨a3, rest⟩⟩⟩
        · rw [List.nil_append, endw] at hcat
          injection hcat with hx _
          exact absurd hx (by decide)
        · rw [List.cons_append, List.nil_append, endw] at hcat
          injection hcat with _ hcat
          injection hcat with hx _
          exact absurd hx (by decide)
        · rw [List.cons_append, List.cons_append, List.nil_append, endw] at hcat
          injection hcat with _ hcat
          injection hcat with _ hcat
          injection hcat with hx _
          exact absurd hx (by decide)
        · rw [List.cons_append, List.cons_append, List.cons_append] at hcat
          injection hcat with ha1 hcat
          injection hcat with ha2 hcat
          injection hcat with ha3 _
          exact sc rest hc (by rw [ha1, ha2, ha3])
      have hstep : replaceAllMarker (c :: (cs ++ endw)) = c :: replaceAllMarker (cs ++ endw) :=
        replaceAllMarker.eq_2 c (cs ++ endw) sc2
      rw [List.cons_append, hstep, ih h2]
      rfl

theorem dropWhile_no_ws {l : List Char} (h : ∀ c ∈ l, c.isWhitespace = false) :
    l.dropWhile Char.isWhitespace = l := by
  cases l with
  | nil => rfl
  | cons c cs =>
    have hc : c.isWhitespace = false := h c (List.mem_cons_self _ _)
    rw [List.dropWhile_cons, hc]
    simp

theorem pyStrip_word {w : List Char} (hne : w ≠ [])
    (hws : ∀ c ∈ w, c.isWhitespace = false) : pyStrip (w ++ [' ']) = w := by
  rw [pyStrip]
  have h1 : (w ++ [' ']).dropWhile Char.isWhitespace = w ++ [' '] := by
    cases w with
    | nil => exact absurd rfl hne
    | cons c cs =>
      have hc : c.isWhitespace = false := hws c (List.mem_cons_self _ _)
      rw [List.cons_append, List.dropWhile_cons, hc]
      simp
  have h2 : w.reverse.dropWhile Char.isWhitespace = w.reverse :=
    dropWhile_no_ws (fun c hc => hws c (List.mem_reverse.1 hc))
  rw [h1, List.reverse_append]
  have h3 : ([' '] : List Char).reverse ++ w.reverse = ' ' :: w.reverse := rfl
  rw [h3, List.dropWhile_cons]
  have h4 : (' ' : Char).isWhitespace = true := by decide
  rw [h4]
  simp only [if_true]
  rw [h2, List.reverse_reverse]

theorem map_some_inj {α : Type} {l1 l2 : List α} (h : l1.map some = l2.map some) :
    l1 = l2 := by
  induction l1 generalizing l2 with
  | nil =>
    cases l2 with
    | nil => rfl
    | cons b bs => simp at h
  | cons a as ih =>
    cases l2 with
    | nil => simp at h
    | cons b bs =>
      simp only [List.map_cons, List.cons.injEq] at h
      rw [Option.some.injEq] at h
      rw [h.1, ih h.2]

theorem decode_inverts {st : BPEState} (hInv : VocabInvAgrees st) :
    ∀ (tokens : List Symb) (ids : List Nat),
      tokens.map (fun t => alookup st.vocab t) = ids.map some →
      ids.map (fun i => decodeTokenSym st.inv i) = tokens := by
  intro tokens
  induction tokens with
  | nil =>
    intro ids h
    cases ids with
    | nil => rfl
    | cons i is => simp at h
  | cons t ts ih =>
    intro ids h
    cases ids with
    | nil => simp at h
    | cons i is =>
      simp only [List.map_cons, List.cons.injEq] at h
      have hrt : alookup st.inv i = some t := vocab_roundtrip hInv h.1
      have hd : decodeTokenSym st.inv i = t := by
        rw [decodeTokenSym, hrt]
        rfl
      rw [List.map_cons, ih is h.2, hd]

/-! ### Claim theorems -/

/-- C9: for every word representation and every pair, the merge applier
preserves the concatenation of the word's symbols: flattening its output
yields exactly the same character string as flattening its input - merging
only removes internal boundaries, never characters. -/
theorem C9_merge_preserves_concat (w : List Symb) (f s : Symb) :
    (mergeWord w f s).flatten = w.flatten :=
  mergeWord_flatten w f s

/-- C5: the merge applier returns the word with every non-overlapping
left-to-right adjacent occurrence of the pair replaced by the concatenation
of its two members (stated for pairs whose second member is a non-empty
symbol, which covers every symbol a word representation can contain); when
the pair does not occur the result is the unchanged input, so applying the
applier twice with an absent pair leaves the word unchanged.  The applier is
a pure function in this model, so it cannot mutate its input. -/
theorem C5_merge_applier (w : List Symb) (f s : Symb) :
    (s ≠ [] → mergeWord w f s = specMergeAll f s w) ∧
    ((f, s) ∉ adjPairs w → mergeWord w f s = w) ∧
    ((f, s) ∉ adjPairs w → mergeWord (mergeWord w f s) f s = w) := by
  refine ⟨fun hs => mergeWord_eq_specMergeAll hs w f,
    fun h => mergeWord_of_not_mem h, fun h => ?_⟩
  rw [mergeWord_of_not_mem h, mergeWord_of_not_mem h]

theorem C5_merge_applier_witness :
    mergeWord [['a'], ['b'], ['a'], ['b']] ['a'] ['b'] =
      specMergeAll ['a'] ['b'] [['a'], ['b'], ['a'], ['b']] ∧
    mergeWord [['a'], ['b']] ['x'] ['y'] = [['a'], ['b']] ∧
    mergeWord (mergeWord [['a'], ['b']] ['x'] ['y']) ['x'] ['y'] = [['a'], ['b']] :=
  ⟨(C5_merge_applier [['a'], ['b'], ['a'], ['b']] ['a'] ['b']).1 (by decide),
   (C5_merge_applier [['a'], ['b']] ['x'] ['y']).2.1 (by decide),
   (C5_merge_applier [['a'], ['b']] ['x'] ['y']).2.2 (by decide)⟩

/-- C2: each pass of the encoder's inner loop enumerates the word's adjacent
pairs in left-to-right order of first occurrence, selects the first
enumerated pair with an entry in the merge-rule table and applies the merge
applier for it to the whole word (positional-first selection); the loop
stops exactly when no enumerated pair is in the table. -/
theorem C2_encoder_positional_first (ms : List ((Symb × Symb) × Symb)) (w : List Symb) :
    encodeStep ms w = (specSelectBigram ms w).map (fun p => mergeWord w p.1 p.2) ∧
    (encodeWordLoop ms w = w ↔ specSelectBigram ms w = none) :=
  ⟨encodeStep_eq_spec ms w, encodeWordLoop_eq_self_iff ms w⟩

/-- C3: the trainer's pair selection returns the adjacent pair of maximal
summed corpus frequency; among tied pairs it returns the first one in
construction order of the pair-frequency table, which is the pair whose
first adjacent occurrence comes earliest when scanning the corpus words in
enumeration order (and each word left to right). -/
theorem C3_trainer_selection (wf : List (List Symb × Nat)) :
    bestPair wf = specBestPair wf := by
  rw [bestPair, pyMax_eq_find, getPairs_entries, List.find?_map]
  have hmv : maxVal ((firstOccurrences (corpusAdjStream wf)).map (fun p => (p, pairFreq wf p)))
      = maxNat ((firstOccurrences (corpusAdjStream wf)).map (pairFreq wf)) := by
    rw [maxVal, List.map_map]
    rfl
  rw [Option.map_map]
  have hcomp : (Prod.fst ∘ fun p : Symb × Symb => (p, pairFreq wf p)) = id := rfl
  rw [hcomp, Option.map_id, id_eq, specBestPair]
  congr 1
  funext p
  simp only [Function.comp_apply]
  rw [hmv]

/-- C7: the encoder maps any final symbol absent from vocab to the id stored
for the end-of-word marker, and the decoder maps any id absent from
inverse_vocab to the marker symbol; the substitution is silent in both
directions, and both mapping functions are total, so out-of-vocabulary input
can never raise an error. -/
theorem C7_oov_fallback (vocab : List (Symb × Nat)) (inv : List (Nat × Symb))
    (t : Symb) (i : Nat) :
    (t ∉ vocab.map Prod.fst → encodeTokenId vocab t = alookup vocab endw) ∧
    (i ∉ inv.map Prod.fst → decodeTokenSym inv i = endw) := by
  constructor
  · intro h
    rw [encodeTokenId, (alookup_eq_none_iff vocab t).2 h]
  · intro h
    rw [decodeTokenSym, (alookup_eq_none_iff inv i).2 h]
    rfl

theorem C7_oov_fallback_witness :
    encodeTokenId [(endw, 0)] ['z'] = alookup [(endw, 0)] endw ∧
    decodeTokenSym [(0, endw)] 5 = endw :=
  ⟨(C7_oov_fallback [(endw, 0)] [(0, endw)] ['z'] 5).1 (by decide),
   (C7_oov_fallback [(endw, 0)] [(0, endw)] ['z'] 5).2 (by decide)⟩

/-- C8 counterexample: encoding the word abab with the merges trained on the
corpus containing abab once, the first pass of the encoder's inner loop
merges the pair (a, b) at both of its occurrences, taking the word from 5
symbols to 3 - one iteration reduces the symbol count by two, not by one as
the claim states. -/
theorem C8_cex :
    (encodeStep (train 20 [(['a', 'b', 'a', 'b'], 1)]).merges
        (initRep ['a', 'b', 'a', 'b'])).map List.length = some 3 ∧
    (initRep ['a', 'b', 'a', 'b']).length = 5 := by
  decide

/-- C8 (amended): the encoder's inner merge loop always terminates, within at
most as many passes as the word has symbols - running the loop with that
much fuel already reaches its fixpoint - because every pass that performs a
merge strictly reduces the word's symbol count by at least one (not always
exactly one). -/
theorem C8_encode_terminates (ms : List ((Symb × Symb) × Symb)) (w : List Symb) :
    (∀ w2, encodeStep ms w = some w2 → w2.length < w.length) ∧
    (∀ k, encodeLoopFuel ms (w.length + k) w = encodeWordLoop ms w) := by
  constructor
  · intro w2 h
    exact encodeStep_length_lt h
  · intro k
    exact encodeLoopFuel_stable ms w.length w (Nat.le_refl _) k

theorem C8_encode_terminates_witness :
    ([['a', 'b'], ['a', 'b'], endw] : List Symb).length <
      (initRep ['a', 'b', 'a', 'b']).length ∧
    encodeLoopFuel (train 20 [(['a', 'b', 'a', 'b'], 1)]).merges
        ((initRep ['a', 'b', 'a', 'b']).length + 7) (initRep ['a', 'b', 'a', 'b']) =
      encodeWordLoop (train 20 [(['a', 'b', 'a', 'b'], 1)]).merges
        (initRep ['a', 'b', 'a', 'b']) :=
  ⟨(C8_encode_terminates (train 20 [(['a', 'b', 'a', 'b'], 1)]).merges
      (initRep ['a', 'b', 'a', 'b'])).1 [['a', 'b'], ['a', 'b'], endw] (by decide),
   (C8_encode_terminates (train 20 [(['a', 'b', 'a', 'b'], 1)]).merges
      (initRep ['a', 'b', 'a', 'b'])).2 7⟩

/-- C6: for a non-empty training corpus, the vocabulary size never decreases
during training - each training iteration can only keep or grow the vocab
table - and the final vocabulary size never exceeds the maximum of the
target vocab size and the number of distinct initial characters. -/
theorem C6_vocab_size_bounds (target : Nat) (wc : List (List Char × Nat))
    (_hne : wc ≠ []) :
    (∀ st st2 : BPEState, trainStep st = some st2 →
        st.vocab.length ≤ st2.vocab.length) ∧
    (train target wc).vocab.length ≤ max target (initState wc).vocab.length := by
  constructor
  · intro st st2 h
    obtain ⟨bp, _, hst2⟩ := trainStep_eq_some h
    exact hst2 ▸ applyMerge_vocab_length_le st bp
  · exact train_vocab_length_le target wc

theorem C6_vocab_size_bounds_witness :
    (train 20 [(['a', 'b'], 1)]).vocab.length ≤
      max 20 (initState [(['a', 'b'], 1)]).vocab.length :=
  (C6_vocab_size_bounds 20 [(['a', 'b'], 1)] (by decide)).2

/-- C10: after training on a corpus containing at least one word, the
end-of-word marker has a vocab entry (every initial word representation ends
with it, so it is collected as an initial symbol), hence the encoder's
fallback id is a present integer and encode only ever emits present ids,
never a missing value. -/
theorem C10_endw_in_vocab (target : Nat) (wc : List (List Char × Nat))
    (hne : wc ≠ []) :
    endw ∈ (train target wc).vocab.map Prod.fst ∧
    ∀ (text : List Char) (x : Option Nat), x ∈ encode (train target wc) text → x ≠ none := by
  refine ⟨endw_mem_train hne, ?_⟩
  intro text x hx
  rw [encode] at hx
  rcases List.mem_map.1 hx with ⟨t, _, hxid⟩
  rw [← hxid]
  exact encodeTokenId_isSome (endw_mem_train hne) t

theorem C10_endw_in_vocab_witness :
    endw ∈ (train 20 [(['a', 'b'], 1)]).vocab.map Prod.fst :=
  (C10_endw_in_vocab 20 [(['a', 'b'], 1)] (by decide)).1

/-- C4 counterexample: training with target 20 on the corpus whose single
word is the literal four-character marker string makes the third merge
produce a token string equal to the marker, overwriting the marker's
initial vocab entry (id 2) with id 7; after training id 8 belongs to a vocab
entry but id 2 no longer does, so the id range of the symbol-to-id map is
not dense from 0 and an assigned id has been dropped, refuting the claimed
bijection invariant. -/
theorem C4_cex :
    8 ∈ (train 20 [(endw, 1)]).vocab.map Prod.snd ∧
    2 ∉ (train 20 [(endw, 1)]).vocab.map Prod.snd := by
  decide

/-- C4 (amended): provided no merge ever produces a token string already
present as a vocab key (the unconditional claim fails exactly when one does,
see the counterexample), the vocabulary is a bijection onto a dense
contiguous id range: keys are distinct, the ids in table order are exactly
0, 1, ..., size-1, inverse_vocab mirrors vocab entry for entry, the table
consists of the initial characters in lexicographically sorted order
followed by the merge tokens receiving the next id in training order, and no
id is ever reused or removed. -/
theorem C4_vocab_bijection (target : Nat) (wc : List (List Char × Nat))
    (hcf : collisionFreeLoop target 100 (initState wc) = true) :
    ((train target wc).vocab.map Prod.fst).Nodup ∧
    (train target wc).vocab.map Prod.snd = List.range (train target wc).vocab.length ∧
    (train target wc).inv = (train target wc).vocab.map (fun e => (e.2, e.1)) ∧
    (train target wc).vocab =
      (initState wc).vocab ++
        enumFrom (initState wc).vocab.length ((train target wc).merges.map Prod.snd) ∧
    (initState wc).vocab = enumFrom 0 (sortSyms (collectChars (initWordFreqs wc))) ∧
    (sortSyms (collectChars (initWordFreqs wc))).Pairwise (fun a b => symLE a b = true) := by
  obtain ⟨h1, h2, h3, h4, h5⟩ := appendOnly_train hcf
  exact ⟨h4, appendOnly_ids (initState_ids wc) h1, h3, h1, rfl, sortSyms_sorted _⟩

theorem C4_vocab_bijection_witness :
    ((train 20 [(['a', 'b'], 1)]).vocab.map Prod.fst).Nodup ∧
    (train 20 [(['a', 'b'], 1)]).vocab.map Prod.snd =
      List.range (train 20 [(['a', 'b'], 1)]).vocab.length :=
  ⟨(C4_vocab_bijection 20 [(['a', 'b'], 1)] (by decide)).1,
   (C4_vocab_bijection 20 [(['a', 'b'], 1)] (by decide)).2.1⟩

/-- C1 counterexample: train on the corpus whose single word is the literal
marker string; every character of that word has a vocab entry and encoding
the word triggers no fallback substitution (its single final token is in
vocab, with id 8), yet decoding the resulting id sequence does not return
the word - the marker characters inside the word are conflated with the
word boundary and erased. -/
theorem C1_cex :
    (∀ c ∈ endw, [c] ∈ (train 20 [(endw, 1)]).vocab.map Prod.fst) ∧
    encode (train 20 [(endw, 1)]) endw = [some 8] ∧
    (∀ t ∈ encodeTokens (train 20 [(endw, 1)]) endw,
      (alookup (train 20 [(endw, 1)]).vocab t).isSome = true) ∧
    decode (train 20 [(endw, 1)]) [8] ≠ endw := by
  decide

/-- C1 (amended): decode inverts encode on any single whitespace-free word
whose encoding triggers no fallback substitution, provided additionally that
the word does not contain the literal marker string as a substring (the
unconditional claim fails on words containing it, see the counterexample).
The characters-in-vocabulary premise of the claim is not needed: it is
subsumed by the no-fallback premise. -/
theorem C1_round_trip (target : Nat) (wc : List (List Char × Nat)) (w : List Char)
    (ids : List Nat)
    (hws : ∀ c ∈ w, c.isWhitespace = false)
    (hmk : hasMarker w = false)
    (hfb : ∀ t ∈ encodeTokens (train target wc) w,
      (alookup (train target wc).vocab t).isSome = true)
    (hid : encode (train target wc) w = ids.map some) :
    decode (train target wc) ids = w := by
  by_cases hnil : w = []
  · subst hnil
    have htok : encodeTokens (train target wc) [] = [] := rfl
    rw [encode, htok] at hid
    have hids : ids = [] := by
      cases ids with
      | nil => rfl
      | cons i is => simp at hid
    subst hids
    rfl
  · have hsplit : pySplit w = [w] := pySplit_single hnil hws
    have htok : encodeTokens (train target wc) w =
        encodeWordLoop (train target wc).merges (initRep w) := by
      rw [encodeTokens, hsplit]
      simp
    rw [encode, htok] at hid
    have hmap : (encodeWordLoop (train target wc).merges (initRep w)).map
        (fun t => alookup (train target wc).vocab t) = ids.map some := by
      rw [← hid]
      refine List.map_congr_left ?_
      intro t ht
      have hsome := hfb t (by rw [htok]; exact ht)
      rw [encodeTokenId]
      cases hl : alookup (train target wc).vocab t with
      | some i => rfl
      | none =>
        rw [hl] at hsome
        simp at hsome
    have hdec := decode_inverts (vocabInv_train target wc) _ ids hmap
    rw [decode, hdec]
    have hflat : (encodeWordLoop (train target wc).merges (initRep w)).flatten =
        w ++ endw := by
      rw [encodeWordLoop, encodeLoopFuel_flatten, flatten_initRep]
    rw [hflat, replaceAllMarker_marker_free w hmk, pyStrip_word hnil hws]

theorem C1_round_trip_witness :
    decode (train 20 [(['a', 'b'], 1)]) [4] = ['a', 'b'] :=
  C1_round_trip 20 [(['a', 'b'], 1)] ['a', 'b'] [4]
    (by decide) (by decide) (by decide) (by decide)
